import Mathlib

/-!
Shallow embedding of the `martin-db` core (statement parser and execution
engine) and proofs about it.

Source files embedded:
- `src/engine/mod.rs` : `Value`, `Column`, `Table`, `Database`, `ExecutionResult`,
  `Table::new`, `Table::insert_row`, `Table::rebuild_indexes`,
  `Database::create_table`, `Database::get_table`, `Database::execute`,
  `Database::handle_select`.
- `src/parser/mod.rs` : `tokenize`, `parse`, `parse_create`, `parse_insert`,
  `parse_select`, `Statement`, `ColumnDefinition`, `JoinDefinition`.
- `src/error/db_error.rs` : `DbError`.

Modelling conventions:
- Rust `i32` values are modelled as `Int`; the only producer of integers in
  the core is the INSERT value parser, which range-checks against
  `[-2^31, 2^31 - 1]` exactly as `str::parse::<i32>` does.  The engine never
  performs arithmetic on values, only structural equality, so no other
  overflow point exists.
- `HashMap<usize, HashSet<Value>>` (the uniqueness index) is modelled as a
  function `Nat → Option (Finset Value)`: the code only ever queries, creates
  and updates entries keyed by column position and never iterates over the
  map, so the pointwise view is exact.
- `HashMap<String, Table>` (the database) is modelled as
  `String → Option Table` for the same reason.
- Fallible Rust functions returning `Result<T, E>` become `Except E T`.
  `Table::insert_row` mutates nothing on its error paths (the constraint
  check loop only reads), so the functional rendering where an error yields
  no new table is exact; likewise `Database::execute` returns the input
  database unchanged in every error branch, mirroring that the corresponding
  Rust paths perform no mutation before returning `Err`.
- Rust's panicking index `row[i]` is rendered as `rowGet` with a `Null`
  default; every call site in the engine is guarded (by the arity check on
  insert, or by in-range positions from `position`/column enumeration on
  rows that the engine itself built with full arity), and the theorems that
  touch unguarded select paths carry the full-arity hypothesis under which
  the default is never consulted.
-/

namespace MartinDb

/-- Supported primitive data types for database values (`enum Value`). -/
inductive Value where
  | Integer (n : Int)
  | Text (s : String)
  | Null
deriving DecidableEq, Repr

/-- Schema of a table column (`struct Column` in the engine). -/
structure Column where
  name : String
  data_type : String
  is_primary : Bool
  is_unique : Bool
deriving DecidableEq, Repr

/-- Core table: named, ordered columns, ordered rows, and the uniqueness
index mapping column position to the set of values present (`struct Table`). -/
structure Table where
  name : String
  columns : List Column
  rows : List (List Value)
  indexes : Nat → Option (Finset Value)

/-- Typed execution errors (`enum DbError`). -/
inductive DbError where
  | TableAlreadyExists (s : String)
  | TableNotFound (s : String)
  | ColumnNotFound (s : String)
  | UniqueViolation (s : String)
  | ParseError (s : String)
  | IoError (s : String)
deriving DecidableEq, Repr

/-- The index map built by the loop in `Table::new` (and the first loop of
`rebuild_indexes`): an empty set at every primary/unique column position,
no entry elsewhere. -/
def initIndexes (columns : List Column) : Nat → Option (Finset Value) :=
  fun i =>
    match columns[i]? with
    | some c => if c.is_primary || c.is_unique then some ∅ else none
    | none => none

/-- `Table::new`: fresh table with empty rows and freshly initialized
indexes for primary/unique columns. -/
def Table.new (name : String) (columns : List Column) : Table :=
  { name := name, columns := columns, rows := [], indexes := initIndexes columns }

/-- Net effect of the index-update loop
`for (i, value) in row.iter().enumerate() { if let Some(index) = indexes.get_mut(&i) { index.insert(value.clone()); } }`:
position `i` gains `row[i]` when an entry exists there and `i < row.len()`;
all other positions are untouched.  The loop iterations update pairwise
distinct keys, so this pointwise description is exactly its result. -/
def addRowToIndexes (m : Nat → Option (Finset Value)) (row : List Value) :
    Nat → Option (Finset Value) :=
  fun i =>
    match m i, row[i]? with
    | some s, some v => some (insert v s)
    | some s, none => some s
    | none, _ => none

/-- The constraint-check loop of `Table::insert_row`: scanning the row left
to right (position `i` onward), return the first position whose value is
already present in that position's index, if any. -/
def firstViolation (m : Nat → Option (Finset Value)) :
    List Value → Nat → Option Nat
  | [], _ => none
  | v :: rest, i =>
    match m i with
    | some s => if v ∈ s then some i else firstViolation m rest (i + 1)
    | none => firstViolation m rest (i + 1)

/-- Name of the column at position `i` (`self.columns[i].name`); the `""`
default is never consulted at the positions the engine uses it on. -/
def colName (t : Table) (i : Nat) : String :=
  ((t.columns[i]?).map Column.name).getD ""

/-- `Table::insert_row`: arity check, then the full constraint scan over all
indexed columns, then (only on success) the index updates and the row
append.  An error result carries no table because the Rust error paths
return before any mutation. -/
def Table.insert_row (t : Table) (row : List Value) : Except DbError Table :=
  if row.length ≠ t.columns.length then
    .error (.ParseError "Columns count mismatch")
  else
    match firstViolation t.indexes row 0 with
    | some i => .error (.UniqueViolation (colName t i))
    | none =>
        .ok { t with
                rows := t.rows ++ [row],
                indexes := addRowToIndexes t.indexes row }

/-- `Table::rebuild_indexes`: clear the map, re-create empty sets for the
primary/unique positions, then re-insert every row's values. -/
def Table.rebuild_indexes (t : Table) : Table :=
  { t with indexes := t.rows.foldl addRowToIndexes (initIndexes t.columns) }

/-- The database: a map from table name to table (`struct Database`). -/
structure Database where
  tables : String → Option Table

/-- Possible return values from an executed statement (`enum ExecutionResult`). -/
inductive ExecutionResult where
  | Message (s : String)
  | Data (headers : List String) (rows : List (List Value))

/-- `Database::new`. -/
def Database.new : Database := ⟨fun _ => none⟩

/-- `Database::create_table`: reject an existing name, otherwise insert a
fresh `Table::new`. -/
def Database.create_table (db : Database) (name : String) (columns : List Column) :
    Except DbError Database :=
  if (db.tables name).isSome then
    .error (.TableAlreadyExists name)
  else
    .ok ⟨fun n => if n = name then some (Table.new name columns) else db.tables n⟩

/-- `Database::get_table`. -/
def Database.get_table (db : Database) (name : String) : Except DbError Table :=
  match db.tables name with
  | some t => .ok t
  | none => .error (.TableNotFound name)

/-- Metadata for creating a new column via SQL (`struct ColumnDefinition`). -/
structure ColumnDefinition where
  name : String
  data_type : String
  is_primary : Bool
  is_unique : Bool
deriving DecidableEq, Repr

/-- Metadata for performing an inner join (`struct JoinDefinition`). -/
structure JoinDefinition where
  table_name : String
  left_column : String
  right_column : String
deriving DecidableEq, Repr

/-- The typed result of parsing one statement (`enum Statement`). -/
inductive Statement where
  | CreateTable (name : String) (columns : List ColumnDefinition)
  | Insert (table_name : String) (values : List Value)
  | Select (table_name : String) (columns : List String)
      (join : Option JoinDefinition)
deriving DecidableEq, Repr

/-- The column-name resolution used by `handle_select`'s no-join path and by
both sides of its join path: `columns.iter().position(|c| c.name == name)`,
i.e. the lowest position whose column bears the requested name. -/
def resolveColumn (columns : List Column) (name : String) : Option Nat :=
  columns.findIdx? (fun c => c.name = name)

/-- Rust's `row[i]`, rendered total with a `Null` default; the engine only
indexes in range (see the module comment). -/
def rowGet (row : List Value) (i : Nat) : Value :=
  row.getD i Value.Null

/-- `Database::handle_select`: no-join projection path and nested-loop
inner-join path.  Each `match` on an `Except` renders one `?` propagation
point of the source. -/
def Database.handle_select (db : Database) (table_name : String)
    (columns : List String) (join : Option JoinDefinition) :
    Except DbError ExecutionResult :=
  match db.get_table table_name with
  | .error e => .error e
  | .ok table =>
    match join with
    | none =>
        match (if columns.contains "*" then
                Except.ok (List.range table.columns.length)
              else
                columns.mapM (fun name =>
                  match resolveColumn table.columns name with
                  | some i => Except.ok i
                  | none => Except.error (DbError.ColumnNotFound name)) :
              Except DbError (List Nat)) with
        | .error e => .error e
        | .ok col_indices =>
            .ok (.Data (col_indices.map (fun i => colName table i))
              (table.rows.map (fun row => col_indices.map (fun i => rowGet row i))))
    | some join_info =>
        match db.get_table join_info.table_name with
        | .error e => .error e
        | .ok right_table =>
            match resolveColumn table.columns join_info.left_column with
            | none => .error (.ColumnNotFound join_info.left_column)
            | some left_col_idx =>
                match resolveColumn right_table.columns join_info.right_column with
                | none => .error (.ColumnNotFound join_info.right_column)
                | some right_col_idx =>
                    .ok (.Data
                      (table.columns.map (fun c => table.name ++ "." ++ c.name) ++
                        right_table.columns.map
                          (fun c => right_table.name ++ "." ++ c.name))
                      (table.rows.flatMap (fun l_row =>
                        (right_table.rows.filter (fun r_row =>
                            rowGet l_row left_col_idx = rowGet r_row right_col_idx)).map
                          (fun r_row => l_row ++ r_row))))

/-- `Database::execute`.  The result pairs the post-state with the outcome:
every Rust error branch returns with `self` unmutated, so the embedding
returns the input database there. -/
def Database.execute (db : Database) (statement : Statement) :
    Database × Except DbError ExecutionResult :=
  match statement with
  | .CreateTable name columns =>
      let engine_colums := columns.map (fun c =>
        Column.mk c.name c.data_type c.is_primary c.is_unique)
      match db.create_table name engine_colums with
      | .ok db' => (db', .ok (.Message ("Table '" ++ name ++ "' created")))
      | .error e => (db, .error e)
  | .Insert table_name values =>
      match db.tables table_name with
      | none => (db, .error (.TableNotFound table_name))
      | some table =>
          match table.insert_row values with
          | .ok table' =>
              (⟨fun n => if n = table_name then some table' else db.tables n⟩,
                .ok (.Message "1 row inserted."))
          | .error e => (db, .error e)
  | .Select table_name columns join =>
      (db, db.handle_select table_name columns join)

/-- `str::to_uppercase`, modelled on the character list so that it reduces
inside the kernel (`String.toUpper` itself gets stuck on byte positions).
Rust's uppercasing is Unicode-wide, `Char.toUpper` is ASCII-only; the
keywords this parser compares against are all ASCII, where the two agree. -/
def strToUpper (s : String) : String :=
  String.mk (s.data.map Char.toUpper)

/-- Splitter underlying `split_whitespace`: cut the character list at
whitespace characters (runs of whitespace produce empty segments, filtered
out by `tokenize`).  Rust's `char::is_whitespace` is Unicode-wide; the SQL
surface here is ASCII, where `Char.isWhitespace` agrees. -/
def splitWSAux (l : List Char) : List (List Char) :=
  l.foldr
    (fun c acc =>
      match acc with
      | [] => if c.isWhitespace then [[]] else [[c]]
      | a :: rest => if c.isWhitespace then [] :: a :: rest else (c :: a) :: rest)
    [[]]

/-- `tokenize`: pad `(`, `)` and `,` with spaces, then split on whitespace. -/
def tokenize (input : String) : List String :=
  let expanded := input.data.flatMap (fun c =>
    if c = '(' then [' ', '(', ' ']
    else if c = ')' then [' ', ')', ' ']
    else if c = ',' then [' ', ',', ' ']
    else [c])
  ((splitWSAux expanded).filter (fun l => l ≠ [])).map (fun l => String.mk l)

/-- Decimal value of a digit list, most significant first. -/
def digitsVal (cs : List Char) : Nat :=
  cs.foldl (fun acc c => 10 * acc + (c.toNat - 48)) 0

/-- `str::parse::<i32>`: optional leading `+`/`-` sign, then one or more
ASCII digits, with the resulting value required to fit in a 32-bit signed
integer.  (Rust checks overflow during accumulation; over unbounded `Int`
that is equivalent to the final range check.) -/
def parseI32 (s : String) : Option Int :=
  match s.data with
  | [] => none
  | c :: cs =>
      let signed : Bool × List Char :=
        if c = '-' then (true, cs)
        else if c = '+' then (false, cs)
        else (false, c :: cs)
      if signed.2 ≠ [] ∧ signed.2.all (fun d => d.isDigit) then
        let v : Int :=
          if signed.1 then -(digitsVal signed.2 : Int) else (digitsVal signed.2 : Int)
        if -(2 ^ 31) ≤ v ∧ v ≤ 2 ^ 31 - 1 then some v else none
      else none

/-- `str::trim_matches('\'')`: repeatedly strip `'` from both ends. -/
def trimMatchesQuote (s : String) : String :=
  let l := s.data.dropWhile (fun c => c = '\'')
  String.mk ((l.reverse.dropWhile (fun c => c = '\'')).reverse)

/-- One value token of `parse_insert`: integer when it lexes as an `i32`,
otherwise text with surrounding single quotes trimmed. -/
def parseValueToken (tok : String) : Value :=
  match parseI32 tok with
  | some n => .Integer n
  | none => .Text (trimMatchesQuote tok)

/-- The value loop of `parse_insert`: stop at `)` or end of input, skip `,`,
convert every other token. -/
def parseVals : List String → List Value
  | [] => []
  | tok :: rest =>
      if tok = ")" then []
      else if tok = "," then parseVals rest
      else parseValueToken tok :: parseVals rest

/-- `parse_insert` (the iterator is positioned just after `INSERT`). -/
def parse_insert (toks : List String) : Except String Statement :=
  match toks with
  | [] => .error "Expected INTO after CREATE"
  | t :: rest =>
      if strToUpper t ≠ "INTO" then .error "Expected INTO after CREATE"
      else
        match rest with
        | [] => .error "Expected table name"
        | name :: rest2 =>
            match rest2 with
            | [] => .error "Expected VALUES after INTO"
            | v :: rest3 =>
                if strToUpper v ≠ "VALUES" then .error "Expected VALUES after INTO"
                else
                  match rest3 with
                  | [] => .error "Expected '('"
                  | p :: rest4 =>
                      if p ≠ "(" then .error "Expected '('"
                      else .ok (.Insert name (parseVals rest4))

/-- The constraint-flag loop of `parse_create`: peek ahead, consuming
`PRIMARY`/`UNIQUE` (setting the flags) and any unrecognized token, stopping
at `,`, `)` or end of input, which are left unconsumed. -/
def consumeFlags : List String → Bool → Bool → Bool × Bool × List String
  | [], p, u => (p, u, [])
  | tok :: rest, p, u =>
      match strToUpper tok with
      | "PRIMARY" => consumeFlags rest true u
      | "UNIQUE" => consumeFlags rest p true
      | "," => (p, u, tok :: rest)
      | ")" => (p, u, tok :: rest)
      | _ => consumeFlags rest p u

/-- The column loop of `parse_create` (fuel-indexed so that it is
structurally recursive and kernel-computable): stop at `)` or end of input,
skip `,`, otherwise read a name, a type (error when input ends first), then
the constraint flags.  Each loop iteration consumes at least one token, so
with fuel at least the token count the fuel case is never reached;
`parseCols` below instantiates the fuel accordingly, and
`parseColsF_fuel_irrelevant` proves any sufficient fuel gives the same
result. -/
def parseColsF : Nat → List String → Except String (List ColumnDefinition)
  | _, [] => .ok []
  | 0, _ => .ok []
  | fuel + 1, tok :: rest =>
      if tok = ")" then .ok []
      else if tok = "," then parseColsF fuel rest
      else
        match rest with
        | [] => .error "Expected column type"
        | ty :: rest2 =>
            let r := consumeFlags rest2 false false
            match parseColsF fuel r.2.2 with
            | .ok cols => .ok (⟨tok, strToUpper ty, r.1, r.2.1⟩ :: cols)
            | .error e => .error e

/-- The column loop of `parse_create`. -/
def parseCols (toks : List String) : Except String (List ColumnDefinition) :=
  parseColsF toks.length toks

/-- `parse_create` (the iterator is positioned just after `CREATE`). -/
def parse_create (toks : List String) : Except String Statement :=
  match toks with
  | [] => .error "Expected TABLE after CREATE"
  | t :: rest =>
      if strToUpper t ≠ "TABLE" then .error "Expected TABLE after CREATE"
      else
        match rest with
        | [] => .error "Expected table name"
        | name :: rest2 =>
            match rest2 with
            | [] => .error "Expected '('"
            | p :: rest3 =>
                if p ≠ "(" then .error "Expected '('"
                else
                  match parseCols rest3 with
                  | .ok cols => .ok (.CreateTable name cols)
                  | .error e => .error e

/-- The column-list loop of `parse_select`: collect tokens until a
case-insensitive `FROM` (consumed), skipping `,`; returns the collected
columns and the remaining tokens. -/
def selCols : List String → List String × List String
  | [] => ([], [])
  | tok :: rest =>
      if strToUpper tok = "FROM" then ([], rest)
      else if tok = "," then selCols rest
      else
        let r := selCols rest
        (tok :: r.1, r.2)

/-- `parse_select`: column list, table name, then — if any token remains —
unconditional join parsing (trigger token ignored, join table, one skipped
token, left column, one skipped token, right column). -/
def parse_select (toks : List String) : Except String Statement :=
  let r := selCols toks
  match r.2 with
  | [] => .error "Expected table name"
  | table_name :: rest2 =>
      match rest2 with
      | [] => .ok (.Select table_name r.1 none)
      | _ :: rest3 =>
          match rest3 with
          | [] => .error "Expected join table"
          | join_table :: rest4 =>
              match rest4.drop 1 with
              | [] => .error "Expected left col"
              | left :: rest6 =>
                  match rest6.drop 1 with
                  | [] => .error "Expected right col"
                  | right :: _ =>
                      .ok (.Select table_name r.1
                        (some ⟨join_table, left, right⟩))

/-- `parse`: tokenize, dispatch on the uppercased leading token. -/
def parse (input : String) : Except String Statement :=
  match tokenize input with
  | [] => .error "Empty query"
  | cmd :: rest =>
      match strToUpper cmd with
      | "CREATE" => parse_create rest
      | "INSERT" => parse_insert rest
      | "SELECT" => parse_select rest
      | c => .error ("Unknown command: " ++ c)

/-! ### Derived notions used by the theorems -/

/-- The set of distinct values appearing at column position `i` across all
rows of `t`. -/
def colValues (t : Table) (i : Nat) : Finset Value :=
  (t.rows.filterMap (fun r => r[i]?)).toFinset

/-- The index invariant: every primary/unique column position's index entry
is exactly the set of distinct values at that position across all rows, and
no other position has an entry. -/
def indexWF (t : Table) : Prop :=
  ∀ i, t.indexes i =
    match t.columns[i]? with
    | some c => if c.is_primary || c.is_unique then some (colValues t i) else none
    | none => none

/-- Tables reachable by the core's own operations: creation, successful
insertions (a failed insertion yields no new table state), and index
rebuilds. -/
inductive Reach : Table → Prop where
  | new : ∀ name columns, Reach (Table.new name columns)
  | insert_ok : ∀ t row t', Reach t → t.insert_row row = .ok t' → Reach t'
  | rebuild : ∀ t, Reach t → Reach t.rebuild_indexes

/-- Apply a sequence of insertions, collecting each insert's outcome
(`none` = accepted, `some e` = rejected with `e`); a rejected insert leaves
the table as it was, mirroring `insert_row`'s mutation-free error paths. -/
def runInserts (t : Table) : List (List Value) → Table × List (Option DbError)
  | [] => (t, [])
  | row :: rest =>
      match t.insert_row row with
      | .ok t' => ((runInserts t' rest).1, none :: (runInserts t' rest).2)
      | .error e => ((runInserts t rest).1, some e :: (runInserts t rest).2)

/-- Concrete single-column table (primary `id`, holding the row `[1]`, with
its index populated accordingly) used to instantiate hypotheses. -/
def uTable : Table :=
  ⟨"users", [⟨"id", "INT", true, false⟩], [[Value.Integer 1]],
    fun i => if i = 0 then some {Value.Integer 1} else none⟩

/-- Freshly created two-column table (primary `id`, plain `name`), no rows. -/
def pairTable : Table :=
  Table.new "t2" [⟨"id", "INT", true, false⟩, ⟨"name", "TEXT", false, false⟩]

/-- Database holding only `pairTable`. -/
def pairDb : Database := ⟨fun n => if n = "t2" then some pairTable else none⟩

/-- A token at which the constraint-flag loop of `parse_create` stops:
uppercased `,` or `)` (the loop breaks there without consuming). -/
def notDelimTok (tok : String) : Bool :=
  !(decide (strToUpper tok = ",") || decide (strToUpper tok = ")"))

/-- Concrete left table for the spec's join example: `devs(id, team_id)`
with rows `(1,10)` and `(2,20)`.  (Select paths never read the index, so
the index map is left empty.) -/
def devsTable : Table :=
  ⟨"devs", [⟨"id", "INT", true, false⟩, ⟨"team_id", "INT", false, false⟩],
    [[.Integer 1, .Integer 10], [.Integer 2, .Integer 20]], fun _ => none⟩

/-- Concrete right table for the spec's join example: `teams(id, name)`
with rows `(10,'Eng')` and `(20,'Ops')`. -/
def teamsTable : Table :=
  ⟨"teams", [⟨"id", "INT", true, false⟩, ⟨"name", "TEXT", false, false⟩],
    [[.Integer 10, .Text "Eng"], [.Integer 20, .Text "Ops"]], fun _ => none⟩

/-- Database holding the two join-example tables. -/
def joinDb : Database :=
  ⟨fun n => if n = "devs" then some devsTable
    else if n = "teams" then some teamsTable else none⟩

/-- Concrete table with a duplicated column name `x` (positions 0 and 1)
and one row, used to show the second `x` is unreachable by name. -/
def dupTable : Table :=
  ⟨"d", [⟨"x", "INT", false, false⟩, ⟨"x", "TEXT", false, false⟩],
    [[.Integer 7, .Text "a"]], fun _ => none⟩

/-- Database holding only `dupTable`. -/
def dupDb : Database := ⟨fun n => if n = "d" then some dupTable else none⟩

/-! ### Helper lemmas about the constraint-check scan -/

theorem firstViolation_none_iff (m : Nat → Option (Finset Value))
    (row : List Value) (k : Nat) :
    firstViolation m row k = none ↔
      ∀ i v s, row[i]? = some v → m (k + i) = some s → v ∉ s := by
  induction row generalizing k with
  | nil => simp [firstViolation]
  | cons v rest ih =>
      simp only [firstViolation]
      cases hm : m k with
      | none =>
          rw [ih (k + 1)]
          constructor
          · intro h i w s hg hms
            cases i with
            | zero =>
                rw [List.getElem?_cons_zero] at hg
                rw [Nat.add_zero] at hms
                rw [hm] at hms
                cases hms
            | succ n =>
                have := h n w s (by simpa using hg)
                rw [Nat.add_succ, ← Nat.succ_add] at hms
                exact this hms
          · intro h i w s hg hms
            have hg' : (v :: rest)[i + 1]? = some w := by simpa using hg
            have hms' : m (k + (i + 1)) = some s := by
              rw [Nat.add_succ, ← Nat.succ_add]; exact hms
            exact h (i + 1) w s hg' hms'
      | some s0 =>
          by_cases hv : v ∈ s0
          · simp only [hv, if_pos]
            constructor
            · intro h; cases h
            · intro h
              exact absurd hv (h 0 v s0 (by simp) (by simpa using hm))
          · simp only [hv, if_neg, not_false_iff]
            rw [ih (k + 1)]
            constructor
            · intro h i w s hg hms
              cases i with
              | zero =>
                  rw [List.getElem?_cons_zero] at hg
                  rw [Nat.add_zero, hm] at hms
                  cases hg; cases hms; exact hv
              | succ n =>
                  have := h n w s (by simpa using hg)
                  rw [Nat.add_succ, ← Nat.succ_add] at hms
                  exact this hms
            · intro h i w s hg hms
              have hg' : (v :: rest)[i + 1]? = some w := by simpa using hg
              have hms' : m (k + (i + 1)) = some s := by
                rw [Nat.add_succ, ← Nat.succ_add]; exact hms
              exact h (i + 1) w s hg' hms'

theorem firstViolation_some (m : Nat → Option (Finset Value))
    (row : List Value) (k j : Nat)
    (h : firstViolation m row k = some j) :
    ∃ i v s, j = k + i ∧ row[i]? = some v ∧ m j = some s ∧ v ∈ s := by
  induction row generalizing k with
  | nil => simp [firstViolation] at h
  | cons v rest ih =>
      simp only [firstViolation] at h
      cases hm : m k with
      | none =>
          rw [hm] at h
          obtain ⟨i, w, s, hj, hg, hms, hmem⟩ := ih (k + 1) h
          refine ⟨i + 1, w, s, ?_, by simpa using hg, hms, hmem⟩
          omega
      | some s0 =>
          simp only [hm] at h
          by_cases hv : v ∈ s0
          · rw [if_pos hv] at h
            cases h
            exact ⟨0, v, s0, by omega, by simp, by simpa using hm, hv⟩
          · rw [if_neg hv] at h
            obtain ⟨i, w, s, hj, hg, hms, hmem⟩ := ih (k + 1) h
            refine ⟨i + 1, w, s, ?_, by simpa using hg, hms, hmem⟩
            omega

/-! ### Claim C1 -/

/-- C1. With the row arity matching the column count (arity mismatch is
rejected earlier, with a ParseError, before the constraint scan), an insert
fails with `UniqueViolation` exactly when some indexed column position's
incoming value is already present in that column's index; the error names a
column that actually is violated (the first such, so the name is a real
offender); and after a successful insert, re-presenting a row that repeats
the value at any indexed position is rejected with `UniqueViolation`.
Because the embedding's error result carries no table, and the source's
check loop performs no mutation before returning, a multiply-violating row
causes no partial index update. -/
theorem insert_unique_violation_spec (t : Table) (row : List Value)
    (hlen : row.length = t.columns.length) :
    ((∃ c, t.insert_row row = .error (.UniqueViolation c)) ↔
      ∃ i v s, row[i]? = some v ∧ t.indexes i = some s ∧ v ∈ s)
    ∧ (∀ c, t.insert_row row = .error (.UniqueViolation c) →
        ∃ i v s, row[i]? = some v ∧ t.indexes i = some s ∧ v ∈ s ∧
          (t.columns[i]?).map Column.name = some c)
    ∧ (∀ t' (row' : List Value) i v, t.insert_row row = .ok t' →
        row[i]? = some v → row'[i]? = some v →
        (t.indexes i).isSome → row'.length = t'.columns.length →
        ∃ c, t'.insert_row row' = .error (.UniqueViolation c)) := by
  have hins : t.insert_row row =
      (match firstViolation t.indexes row 0 with
        | some i => .error (.UniqueViolation (colName t i))
        | none =>
            .ok { t with
                    rows := t.rows ++ [row],
                    indexes := addRowToIndexes t.indexes row }) := by
    simp [Table.insert_row, hlen]
  refine ⟨?_, ?_, ?_⟩
  · constructor
    · rintro ⟨c, hc⟩
      rw [hins] at hc
      cases hfv : firstViolation t.indexes row 0 with
      | none => rw [hfv] at hc; cases hc
      | some j =>
          obtain ⟨i, v, s, hj, hg, hms, hmem⟩ := firstViolation_some _ _ _ _ hfv
          exact ⟨i, v, s, hg, by rwa [hj, Nat.zero_add] at hms, hmem⟩
    · rintro ⟨i, v, s, hg, hms, hmem⟩
      cases hfv : firstViolation t.indexes row 0 with
      | none =>
          exact absurd hmem
            (((firstViolation_none_iff _ _ 0).mp hfv) i v s hg (by simpa using hms))
      | some j =>
          exact ⟨colName t j, by rw [hins, hfv]⟩
  · intro c hc
    rw [hins] at hc
    cases hfv : firstViolation t.indexes row 0 with
    | none => rw [hfv] at hc; cases hc
    | some j =>
        rw [hfv] at hc
        obtain ⟨i, v, s, hj, hg, hms, hmem⟩ := firstViolation_some _ _ _ _ hfv
        have hij : j = i := by omega
        subst hij
        have hilt : j < row.length := by
          by_contra hge
          rw [List.getElem?_eq_none (by omega)] at hg
          cases hg
        have hcols : j < t.columns.length := by omega
        refine ⟨j, v, s, hg, hms, hmem, ?_⟩
        have hgetc : t.columns[j]? = some t.columns[j] := List.getElem?_eq_getElem hcols
        cases hc
        simp [colName, hgetc]
  · intro t' row' i v hok hg hg' hidx hlen'
    rw [hins] at hok
    cases hfv : firstViolation t.indexes row 0 with
    | some j => rw [hfv] at hok; cases hok
    | none =>
        rw [hfv] at hok
        cases hok
        have hnew : ∃ s', addRowToIndexes t.indexes row i = some s' ∧ v ∈ s' := by
          obtain ⟨s0, hs0⟩ := Option.isSome_iff_exists.mp hidx
          exact ⟨insert v s0, by simp [addRowToIndexes, hs0, hg],
            Finset.mem_insert_self v s0⟩
        obtain ⟨s', hs', hv'⟩ := hnew
        have hne : firstViolation (addRowToIndexes t.indexes row) row' 0 ≠ none := by
          intro hnone
          exact ((firstViolation_none_iff _ _ 0).mp hnone) i v s' hg' (by simpa using hs') hv'
        cases hfv' : firstViolation (addRowToIndexes t.indexes row) row' 0 with
        | none => exact absurd hfv' hne
        | some j =>
            have hlen2 : row'.length = t.columns.length := hlen'
            have hres : Table.insert_row { t with rows := t.rows ++ [row], indexes := addRowToIndexes t.indexes row } row' = .error (.UniqueViolation (colName { t with rows := t.rows ++ [row], indexes := addRowToIndexes t.indexes row } j)) := by
              simp [Table.insert_row, hlen2, hfv']
            exact ⟨_, hres⟩

/-- Witness for C1 at a concrete input: re-inserting the value `1` into
`uTable`, whose `id` index already holds `1`, is rejected with a
`UniqueViolation`. -/
theorem insert_unique_violation_spec_witness :
    ∃ c, uTable.insert_row [Value.Integer 1] = .error (.UniqueViolation c) :=
  (insert_unique_violation_spec uTable [Value.Integer 1] rfl).1.mpr
    ⟨0, Value.Integer 1, {Value.Integer 1}, rfl, rfl, by decide⟩

/-! ### Claim C2 -/

/-- C2. Each `execute` call is atomic: whenever it returns an error, the
resulting database is the input database unchanged (CreateTable and Insert
fully apply or fully reject), and executing a Select — join or not, success
or failure — always leaves the database unchanged.  Additionally, on
success CreateTable adds exactly the new table and Insert replaces exactly
the target table, leaving every other name untouched. -/
theorem execute_atomicity (db : Database) (s : Statement) :
    (∀ e, (db.execute s).2 = .error e → (db.execute s).1 = db)
    ∧ (∀ tn cols j, (db.execute (.Select tn cols j)).1 = db)
    ∧ (∀ name cols db' r, db.execute (.CreateTable name cols) = (db', .ok r) →
        db'.tables name =
          some (Table.new name (cols.map (fun c =>
            Column.mk c.name c.data_type c.is_primary c.is_unique)))
        ∧ ∀ n, n ≠ name → db'.tables n = db.tables n)
    ∧ (∀ tn vals db' r, db.execute (.Insert tn vals) = (db', .ok r) →
        ∃ t t', db.tables tn = some t ∧ t.insert_row vals = .ok t' ∧
          db'.tables tn = some t' ∧ ∀ n, n ≠ tn → db'.tables n = db.tables n) := by
  refine ⟨?_, ?_, ?_, ?_⟩
  · intro e
    cases s with
    | CreateTable name cols =>
        simp only [Database.execute]
        split
        · intro he; simp at he
        · intro _; rfl
    | Insert tn vals =>
        simp only [Database.execute]
        split
        · intro _; rfl
        · split
          · intro he; simp at he
          · intro _; rfl
    | Select tn cols j => intro _; rfl
  · intro tn cols j
    rfl
  · intro name cols db' r
    simp only [Database.execute]
    split
    · next db2 hc =>
        intro hex
        cases hex
        simp only [Database.create_table] at hc
        by_cases hfull : (db.tables name).isSome
        · rw [if_pos hfull] at hc; cases hc
        · rw [if_neg hfull] at hc
          cases hc
          constructor
          · simp
          · intro n hn
            simp [hn]
    · intro hex; simp at hex
  · intro tn vals db' r
    simp only [Database.execute]
    split
    · intro hex; simp at hex
    · next t ht =>
        split
        · next t' hi =>
            intro hex
            cases hex
            exact ⟨t, t', ht, hi, by simp, fun n hn => by simp [hn]⟩
        · intro hex; simp at hex

/-- Witness for C2 at a concrete input: inserting into a missing table on
the empty database fails and leaves the database unchanged, and a Select on
the empty database leaves it unchanged. -/
theorem execute_atomicity_witness :
    (Database.new.execute (.Insert "t" [])).1 = Database.new
    ∧ (Database.new.execute (.Select "t" ["*"] none)).1 = Database.new :=
  ⟨(execute_atomicity Database.new (.Insert "t" [])).1 (.TableNotFound "t") rfl,
    (execute_atomicity Database.new (.Select "t" ["*"] none)).2.1 "t" ["*"] none⟩

/-! ### Index invariant machinery (claims C3, C4) -/

theorem foldl_addRow (rows : List (List Value)) (m : Nat → Option (Finset Value))
    (i : Nat) :
    (rows.foldl addRowToIndexes m) i =
      (m i).map (fun s => s ∪ (rows.filterMap (fun r => r[i]?)).toFinset) := by
  induction rows generalizing m with
  | nil => cases hm : m i <;> simp [hm]
  | cons r rest ih =>
      simp only [List.foldl_cons, ih (addRowToIndexes m r)]
      cases hm : m i with
      | none => simp [addRowToIndexes, hm]
      | some s =>
          cases hr : r[i]? with
          | none => simp [addRowToIndexes, hm, hr, List.filterMap_cons]
          | some v =>
              simp [addRowToIndexes, hm, hr, List.filterMap_cons,
                Finset.insert_union, Finset.union_insert]

theorem rebuild_indexWF (t : Table) : indexWF t.rebuild_indexes := by
  intro i
  simp only [Table.rebuild_indexes, colValues]
  rw [foldl_addRow]
  cases hget : t.columns[i]? with
  | none => simp [initIndexes, hget]
  | some c =>
      by_cases hflag : (c.is_primary || c.is_unique) = true
      · simp [initIndexes, hget, hflag]
      · simp only [Bool.not_eq_true] at hflag
        simp [initIndexes, hget, hflag]

theorem insert_ok_indexWF (t : Table) (row : List Value) (t' : Table)
    (hwf : indexWF t) (hok : t.insert_row row = .ok t') : indexWF t' := by
  simp only [Table.insert_row] at hok
  by_cases hlen : row.length = t.columns.length
  · rw [if_neg (by omega)] at hok
    cases hfv : firstViolation t.indexes row 0 with
    | some j => rw [hfv] at hok; cases hok
    | none =>
        rw [hfv] at hok
        cases hok
        intro i
        have hi := hwf i
        simp only [colValues] at hi ⊢
        cases hget : t.columns[i]? with
        | none =>
            simp only [hget] at hi
            simp [addRowToIndexes, hi, hget]
        | some c =>
            simp only [hget] at hi
            by_cases hflag : (c.is_primary || c.is_unique) = true
            · rw [if_pos hflag] at hi
              have hcols : i < t.columns.length := by
                by_contra hge
                rw [List.getElem?_eq_none (by omega)] at hget
                cases hget
              have hrow : i < row.length := by omega
              obtain ⟨v, hv⟩ : ∃ v, row[i]? = some v :=
                ⟨row[i], List.getElem?_eq_getElem hrow⟩
              have hset : ((t.rows ++ [row]).filterMap (fun r => r[i]?)).toFinset =
                  insert v ((t.rows.filterMap (fun r => r[i]?)).toFinset) := by
                simp only [List.filterMap_append, List.toFinset_append]
                simp [List.filterMap_cons, hv, Finset.union_comm, Finset.insert_eq]
              simp only [addRowToIndexes, hi, hv, hget, hflag, hset, if_true]
            · simp only [Bool.not_eq_true] at hflag
              rw [if_neg (by simp [hflag])] at hi
              simp [addRowToIndexes, hi, hget, hflag]
  · rw [if_pos (by omega)] at hok
    cases hok

theorem indexWF_of_reach (t : Table) (h : Reach t) : indexWF t := by
  induction h with
  | new name columns =>
      intro i
      simp only [Table.new, colValues]
      cases hget : columns[i]? with
      | none => simp [initIndexes, hget]
      | some c =>
          by_cases hflag : (c.is_primary || c.is_unique) = true
          · simp [initIndexes, hget, hflag]
          · simp only [Bool.not_eq_true] at hflag
            simp [initIndexes, hget, hflag]
  | insert_ok t row t' _ hok ih => exact insert_ok_indexWF t row t' ih hok
  | rebuild t _ _ => exact rebuild_indexWF t

theorem rebuild_eq_of_indexWF (t : Table) (h : indexWF t) :
    t.rebuild_indexes = t := by
  have hx : t.rows.foldl addRowToIndexes (initIndexes t.columns) = t.indexes := by
    funext i
    rw [foldl_addRow, h i]
    cases hget : t.columns[i]? with
    | none => simp [initIndexes, hget]
    | some c =>
        by_cases hflag : (c.is_primary || c.is_unique) = true
        · simp [initIndexes, hget, hflag, colValues]
        · simp only [Bool.not_eq_true] at hflag
          simp [initIndexes, hget, hflag]
  show { t with indexes := t.rows.foldl addRowToIndexes (initIndexes t.columns) } = t
  rw [hx]

/-! ### Claim C3 -/

/-- C3. For every table reachable by the core's operations (creation,
successful or failed insertion — a failed insertion produces no new state —
and index rebuild), every primary/unique column position's index entry is
exactly the set of distinct values at that position across all rows, and no
non-indexed position has an index entry. -/
theorem reachable_index_invariant (t : Table) (h : Reach t) :
    (∀ i c, t.columns[i]? = some c → (c.is_primary || c.is_unique) = true →
        t.indexes i = some (colValues t i))
    ∧ (∀ i, (∀ c, t.columns[i]? = some c → (c.is_primary || c.is_unique) = false) →
        t.indexes i = none) := by
  have hwf := indexWF_of_reach t h
  constructor
  · intro i c hget hflag
    have hi := hwf i
    simp only [hget] at hi
    rw [hi, if_pos hflag]
  · intro i hc
    have hi := hwf i
    cases hget : t.columns[i]? with
    | none => simp only [hget] at hi; simpa using hi
    | some c =>
        simp only [hget] at hi
        rw [hi, if_neg (by simp [hc c hget])]

/-- Witness for C3 at a concrete input: a freshly created single-column
table with a primary `id` column carries the (empty) index set for
position 0, exactly the distinct values of its (zero) rows there. -/
theorem reachable_index_invariant_witness :
    (Table.new "users" [⟨"id", "INT", true, false⟩]).indexes 0 =
      some (colValues (Table.new "users" [⟨"id", "INT", true, false⟩]) 0) :=
  (reachable_index_invariant _ (Reach.new _ _)).1 0 ⟨"id", "INT", true, false⟩ rfl rfl

/-! ### Claim C4 -/

/-- C4. Rebuilding a reachable (incrementally maintained) table's indexes
from its rows is the identity, so rebuilding and then applying any insert
sequence produces exactly the same final table (hence the same index
contents) and the same accept/reject decision for every insert as the
incrementally maintained table. -/
theorem rebuild_refines_incremental (t : Table) (h : Reach t)
    (inserts : List (List Value)) :
    t.rebuild_indexes = t ∧
      runInserts t.rebuild_indexes inserts = runInserts t inserts := by
  have heq := rebuild_eq_of_indexWF t (indexWF_of_reach t h)
  exact ⟨heq, by rw [heq]⟩

/-- Witness for C4 at a concrete input: the freshly created `users` table,
rebuilt, then fed two equal rows, behaves exactly like the original. -/
theorem rebuild_refines_incremental_witness :
    runInserts (Table.new "users" [⟨"id", "INT", true, false⟩]).rebuild_indexes
        [[Value.Integer 1], [Value.Integer 1]] =
      runInserts (Table.new "users" [⟨"id", "INT", true, false⟩])
        [[Value.Integer 1], [Value.Integer 1]] :=
  (rebuild_refines_incremental _ (Reach.new _ _) _).2

/-! ### Parser value-token lemmas (claim C5) -/

theorem head?_dropWhile (p : Char → Bool) (l : List Char) (x : Char)
    (h : (l.dropWhile p).head? = some x) : p x = false := by
  induction l with
  | nil => simp [List.dropWhile] at h
  | cons c cs ih =>
      by_cases hc : p c
      · rw [List.dropWhile_cons_of_pos hc] at h
        exact ih h
      · rw [List.dropWhile_cons_of_neg hc] at h
        simp only [List.head?_cons, Option.some.injEq] at h
        subst h
        simpa using hc

theorem parseVals_eq (toks : List String) (h : ")" ∉ toks) :
    parseVals toks = (toks.filter (fun tok => tok ≠ ",")).map parseValueToken := by
  induction toks with
  | nil => rfl
  | cons tok rest ih =>
      have hne : tok ≠ ")" := fun e => h (e ▸ List.mem_cons_self _ _)
      have hrest : ")" ∉ rest := fun hm => h (List.mem_cons_of_mem _ hm)
      by_cases hc : tok = ","
      · subst hc
        simp [parseVals, List.filter_cons, ih hrest]
      · simp [parseVals, hne, hc, List.filter_cons, ih hrest]

theorem trimMatchesQuote_shape (tok : String) :
    ∃ a b,
      tok.data = List.replicate a '\'' ++ (trimMatchesQuote tok).data ++
        List.replicate b '\''
      ∧ (∀ x, (trimMatchesQuote tok).data.head? = some x → x ≠ '\'')
      ∧ (∀ x, (trimMatchesQuote tok).data.getLast? = some x → x ≠ '\'') := by
  have hq : ∀ (l : List Char), l.takeWhile (fun c => c = '\'') =
      List.replicate (l.takeWhile (fun c => c = '\'')).length '\'' := by
    intro l
    refine List.eq_replicate_of_mem ?_
    intro b hb
    have := List.mem_takeWhile_imp hb
    simpa using this
  set l := tok.data.dropWhile (fun c => c = '\'') with hl
  have hres : (trimMatchesQuote tok).data =
      (l.reverse.dropWhile (fun c => c = '\'')).reverse := rfl
  refine ⟨(tok.data.takeWhile (fun c => c = '\'')).length,
    (l.reverse.takeWhile (fun c => c = '\'')).length, ?_, ?_, ?_⟩
  · have h1 : tok.data = tok.data.takeWhile (fun c => c = '\'') ++ l :=
      (List.takeWhile_append_dropWhile _ tok.data).symm
    have h2 : l.reverse = l.reverse.takeWhile (fun c => c = '\'') ++
        l.reverse.dropWhile (fun c => c = '\'') :=
      (List.takeWhile_append_dropWhile _ l.reverse).symm
    have h3 : l = (l.reverse.dropWhile (fun c => c = '\'')).reverse ++
        (l.reverse.takeWhile (fun c => c = '\'')).reverse := by
      have h4 := congrArg List.reverse h2
      rw [List.reverse_reverse, List.reverse_append] at h4
      exact h4
    rw [hres]
    calc tok.data = tok.data.takeWhile (fun c => c = '\'') ++ l := h1
      _ = tok.data.takeWhile (fun c => c = '\'') ++
          ((l.reverse.dropWhile (fun c => c = '\'')).reverse ++
            (l.reverse.takeWhile (fun c => c = '\'')).reverse) := by rw [← h3]
      _ = List.replicate (tok.data.takeWhile (fun c => c = '\'')).length '\'' ++
          ((l.reverse.dropWhile (fun c => c = '\'')).reverse ++
            List.replicate (l.reverse.takeWhile (fun c => c = '\'')).length '\'') := by
            rw [← hq tok.data]
            have hrev : (l.reverse.takeWhile (fun c => c = '\'')).reverse =
                List.replicate (l.reverse.takeWhile (fun c => c = '\'')).length '\'' := by
              rw [hq l.reverse]
              simp
            rw [hrev]
      _ = _ := by rw [List.append_assoc]
  · intro x hx
    rw [hres] at hx
    have hne : (l.reverse.dropWhile (fun c => c = '\'')).reverse ≠ [] := by
      intro hemp
      rw [hemp] at hx
      cases hx
    have hlne : l ≠ [] := by
      intro hemp
      rw [hemp] at hne
      simp [List.dropWhile] at hne
    have hxl : l.head? = some x := by
      have h2 : l.reverse = l.reverse.takeWhile (fun c => c = '\'') ++
          l.reverse.dropWhile (fun c => c = '\'') :=
        (List.takeWhile_append_dropWhile _ l.reverse).symm
      have h3 : l = (l.reverse.dropWhile (fun c => c = '\'')).reverse ++
          (l.reverse.takeWhile (fun c => c = '\'')).reverse := by
        have h4 := congrArg List.reverse h2
        rw [List.reverse_reverse, List.reverse_append] at h4
        exact h4
      rw [h3, List.head?_append_of_ne_nil _ hne]
      exact hx
    have := head?_dropWhile (fun c => c = '\'') tok.data x (hl ▸ hxl)
    simpa using this
  · intro x hx
    rw [hres, List.getLast?_reverse] at hx
    have := head?_dropWhile (fun c => c = '\'') l.reverse x hx
    simpa using this

/-! ### Claim C5 -/

/-- C5 counterexample. The claim says quote-stripping removes a single
surrounding pair only, so the token `''x''` would parse to `Text "'x'"`;
the code's `trim_matches('\'')` strips all leading/trailing quotes, and the
statement actually parses to `Text "x"`. -/
theorem insert_value_quote_cex :
    parse "INSERT INTO t VALUES (''x'')" = .ok (.Insert "t" [.Text "x"])
    ∧ Value.Text "x" ≠ Value.Text "'x'" :=
  ⟨rfl, by decide⟩

/-- C5 (amended: `trim_matches` strips all leading and trailing single
quotes, not one pair).  For every INSERT value list, parsing converts each
non-comma token before the closing parenthesis: to `Integer n` when it
lexes as an `i32`, and otherwise to `Text` of the token with its maximal
leading and trailing runs of single quotes removed — the remainder neither
starts nor ends with a quote. -/
theorem insert_values_trim_all (name : String) (toks : List String)
    (h : ")" ∉ toks) :
    parse_insert (["INTO", name, "VALUES", "("] ++ toks) =
      .ok (.Insert name ((toks.filter (fun tok => tok ≠ ",")).map parseValueToken))
    ∧ (∀ tok n, parseI32 tok = some n → parseValueToken tok = .Integer n)
    ∧ (∀ tok, parseI32 tok = none →
        parseValueToken tok = .Text (trimMatchesQuote tok)
        ∧ ∃ a b,
            tok.data = List.replicate a '\'' ++ (trimMatchesQuote tok).data ++
              List.replicate b '\''
            ∧ (∀ x, (trimMatchesQuote tok).data.head? = some x → x ≠ '\'')
            ∧ (∀ x, (trimMatchesQuote tok).data.getLast? = some x → x ≠ '\'')) := by
  refine ⟨?_, ?_, ?_⟩
  · have hbase : parse_insert (["INTO", name, "VALUES", "("] ++ toks) =
        .ok (.Insert name (parseVals toks)) := rfl
    rw [hbase, parseVals_eq toks h]
  · intro tok n hn
    simp [parseValueToken, hn]
  · intro tok hn
    exact ⟨by simp [parseValueToken, hn], trimMatchesQuote_shape tok⟩

/-- Witness for C5's amended theorem at a concrete input: the value list
`(1, ''x'')` (which contains no closing parenthesis token) parses to
`[Integer 1, Text "x"]`. -/
theorem insert_values_trim_all_witness :
    parse_insert (["INTO", "t", "VALUES", "("] ++ ["1", ",", "''x''"]) =
      .ok (.Insert "t" [.Integer 1, .Text "x"]) := by
  have := (insert_values_trim_all "t" ["1", ",", "''x''"] (by decide)).1
  rw [this]
  rfl

/-! ### Claim C6 -/

theorem flatMap_filter_product (l1 l2 : List (List Value)) (li ri : Nat) :
    l1.flatMap (fun l =>
        (l2.filter (fun r => rowGet l li = rowGet r ri)).map (fun r => l ++ r)) =
      ((l1 ×ˢ l2).filter (fun p => rowGet p.1 li = rowGet p.2 ri)).map
        (fun p => p.1 ++ p.2) := by
  induction l1 with
  | nil => rfl
  | cons a l1 ih =>
      simp only [List.flatMap_cons, List.product_cons, List.filter_append,
        List.map_append, ih, List.filter_map, List.map_map]
      rfl

/-- C6. For a join Select whose two tables and two join columns all
resolve, the headers are `"left.col"` for every left column followed by
`"right.col"` for every right column, in declaration order, and the rows
are exactly the concatenations `l ++ r` over the ordered cartesian product
of the two row lists, kept when the join-column values are structurally
equal — i.e. all matches of the first left row in right-table order, then
the second left row, and so on.  (The requested column list is ignored on
the join path, as in the source.) -/
theorem join_select_spec (db : Database) (tn : String) (cols : List String)
    (j : JoinDefinition) (lt rt : Table)
    (hl : db.tables tn = some lt) (hr : db.tables j.table_name = some rt)
    (li ri : Nat)
    (hli : resolveColumn lt.columns j.left_column = some li)
    (hri : resolveColumn rt.columns j.right_column = some ri) :
    db.handle_select tn cols (some j) =
      .ok (.Data
        (lt.columns.map (fun c => lt.name ++ "." ++ c.name) ++
          rt.columns.map (fun c => rt.name ++ "." ++ c.name))
        (((lt.rows ×ˢ rt.rows).filter
            (fun p => rowGet p.1 li = rowGet p.2 ri)).map (fun p => p.1 ++ p.2))) := by
  rw [← flatMap_filter_product]
  simp only [Database.handle_select, Database.get_table, hl, hr, hli, hri]

/-- Witness for C6 at the spec's concrete example: joining `devs` to
`teams` on `team_id = id` yields the two concatenated rows under the
qualified headers. -/
theorem join_select_spec_witness :
    joinDb.handle_select "devs" ["*"] (some ⟨"teams", "team_id", "id"⟩) =
      .ok (.Data ["devs.id", "devs.team_id", "teams.id", "teams.name"]
        [[.Integer 1, .Integer 10, .Integer 10, .Text "Eng"],
          [.Integer 2, .Integer 20, .Integer 20, .Text "Ops"]]) := by
  rw [join_select_spec joinDb "devs" ["*"] ⟨"teams", "team_id", "id"⟩
    devsTable teamsTable rfl rfl 1 0 rfl rfl]
  rfl

/-! ### Column-resolution lemmas (claims C7, C10) -/

theorem resolveColumn_some (cols : List Column) (n : String) (i : Nat)
    (h : resolveColumn cols n = some i) :
    i < cols.length ∧ (∃ c, cols[i]? = some c ∧ c.name = n) ∧
      ∀ j, j < i → ∀ cj, cols[j]? = some cj → cj.name ≠ n := by
  rw [resolveColumn, List.findIdx?_eq_some_iff_findIdx_eq] at h
  obtain ⟨hlt, hfi⟩ := h
  rw [List.findIdx_eq hlt] at hfi
  obtain ⟨hp, hprev⟩ := hfi
  refine ⟨hlt, ⟨cols[i], List.getElem?_eq_getElem hlt, by simpa using hp⟩, ?_⟩
  intro j hj cj hcj
  have hjlt : j < cols.length := lt_trans hj hlt
  have hpj := hprev j hj
  rw [List.getElem?_eq_getElem hjlt] at hcj
  cases hcj
  simpa using hpj

theorem mapM_resolve_ok (cols : List Column) (names : List String)
    (h : ∀ c ∈ names, (resolveColumn cols c).isSome) :
    names.mapM (fun name =>
        match resolveColumn cols name with
        | some i => Except.ok i
        | none => Except.error (DbError.ColumnNotFound name)) =
      Except.ok (names.map (fun c => (resolveColumn cols c).getD 0)) := by
  induction names with
  | nil => rfl
  | cons a rest ih =>
      obtain ⟨i, hi⟩ := Option.isSome_iff_exists.mp (h a (List.mem_cons_self _ _))
      have hrest : ∀ c ∈ rest, (resolveColumn cols c).isSome :=
        fun c hc => h c (List.mem_cons_of_mem _ hc)
      rw [List.mapM_cons, ih hrest, List.map_cons, hi]
      rfl

theorem mapM_resolve_err (cols : List Column) (names : List String) (c : String)
    (h : names.find? (fun n => (resolveColumn cols n).isNone) = some c) :
    names.mapM (fun name =>
        match resolveColumn cols name with
        | some i => Except.ok i
        | none => Except.error (DbError.ColumnNotFound name)) =
      Except.error (DbError.ColumnNotFound c) := by
  induction names with
  | nil => simp [List.find?] at h
  | cons a rest ih =>
      rw [List.find?_cons] at h
      by_cases ha : (resolveColumn cols a).isNone
      · simp only [ha] at h
        cases h
        obtain hnone := Option.isNone_iff_eq_none.mp ha
        rw [List.mapM_cons]
        simp only [hnone]
        rfl
      · simp only [Bool.not_eq_true] at ha
        simp only [ha] at h
        cases hi : resolveColumn cols a with
        | none => simp [hi] at ha
        | some i =>
            rw [List.mapM_cons, ih h]
            simp only [hi]
            rfl

theorem map_range_rowGet (r : List Value) :
    (List.range r.length).map (fun i => rowGet r i) = r := by
  apply List.ext_getElem
  · simp
  · intro j h1 h2
    simp only [List.getElem_map, List.getElem_range, rowGet]
    rw [List.getD_eq_getElem?_getD, List.getElem?_eq_getElem h2]
    rfl

theorem map_range_colName (t : Table) :
    (List.range t.columns.length).map (fun i => colName t i) =
      t.columns.map Column.name := by
  apply List.ext_getElem
  · simp
  · intro j h1 h2
    simp only [List.getElem_map, List.getElem_range, colName]
    rw [List.getElem?_eq_getElem (by simpa using h2)]
    rfl

/-! ### Claim C7 -/

/-- C7. For a no-join Select on an existing table whose rows all have full
arity: a literal `*` anywhere in the requested list projects every column —
headers are all declared column names and there is one output row per
source row, in order (so `*` on a fresh empty table gives all headers and
zero rows); otherwise each requested name resolves to its (first) position,
the first unresolvable name aborts with `ColumnNotFound` naming it, and on
success the headers are exactly the requested names in requested order with
one projected row per source row, preserving order. -/
theorem nojoin_select_spec (db : Database) (tn : String) (cols : List String)
    (t : Table) (ht : db.tables tn = some t)
    (hrows : ∀ r ∈ t.rows, r.length = t.columns.length) :
    (cols.contains "*" = true →
      db.handle_select tn cols none =
        .ok (.Data (t.columns.map Column.name) t.rows))
    ∧ (cols.contains "*" = false →
      (∀ c, cols.find? (fun n => (resolveColumn t.columns n).isNone) = some c →
        db.handle_select tn cols none = .error (.ColumnNotFound c))
      ∧ (cols.find? (fun n => (resolveColumn t.columns n).isNone) = none →
        db.handle_select tn cols none =
          .ok (.Data cols
            (t.rows.map (fun r =>
              cols.map (fun n => rowGet r ((resolveColumn t.columns n).getD 0))))))) := by
  constructor
  · intro hstar
    simp only [Database.handle_select, Database.get_table, ht, hstar, if_pos]
    rw [map_range_colName]
    have hproj : t.rows.map (fun row =>
        (List.range t.columns.length).map (fun i => rowGet row i)) = t.rows := by
      have hrow : ∀ r ∈ t.rows,
          (List.range t.columns.length).map (fun i => rowGet r i) = id r := by
        intro r hr
        rw [← hrows r hr]
        exact map_range_rowGet r
      rw [List.map_congr_left hrow, List.map_id]
    rw [hproj]
  · intro hnostar
    constructor
    · intro c hc
      simp only [Database.handle_select, Database.get_table, ht, hnostar,
        Bool.false_eq_true, if_false]
      rw [mapM_resolve_err t.columns cols c hc]
    · intro hnone
      have hall : ∀ c ∈ cols, (resolveColumn t.columns c).isSome := by
        intro c hc
        have hf := List.find?_eq_none.mp hnone c hc
        simp only [Bool.not_eq_true, Option.isNone_eq_false_iff] at hf
        exact hf
      have hheaders : ∀ c ∈ cols,
          colName t ((resolveColumn t.columns c).getD 0) = id c := by
        intro c hc
        obtain ⟨i, hi⟩ := Option.isSome_iff_exists.mp (hall c hc)
        obtain ⟨hlt, ⟨col, hcol, hname⟩, _⟩ := resolveColumn_some t.columns c i hi
        rw [hi]
        simp [colName, hcol, hname]
      simp only [Database.handle_select, Database.get_table, ht, hnostar,
        Bool.false_eq_true, if_false]
      rw [mapM_resolve_ok t.columns cols hall]
      simp only [List.map_map, Function.comp_def]
      rw [List.map_congr_left hheaders, List.map_id]

/-- Witness for C7 at the spec's concrete consequence: selecting `*` from a
freshly created empty two-column table returns all declared column names as
headers and zero rows. -/
theorem nojoin_select_spec_witness :
    pairDb.handle_select "t2" ["*"] none = .ok (.Data ["id", "name"] []) := by
  have h := (nojoin_select_spec pairDb "t2" ["*"] pairTable rfl
    (fun r hr => absurd hr (List.not_mem_nil r))).1 rfl
  rw [h]
  rfl

/-! ### Constraint-flag-loop characterization (claims C8, C9) -/

theorem consumeFlags_eq (ts : List String) (p u : Bool) :
    consumeFlags ts p u =
      (p || (ts.takeWhile notDelimTok).any
          (fun tok => decide (strToUpper tok = "PRIMARY")),
        u || (ts.takeWhile notDelimTok).any
          (fun tok => decide (strToUpper tok = "UNIQUE")),
        ts.dropWhile notDelimTok) := by
  induction ts generalizing p u with
  | nil => simp [consumeFlags]
  | cons tok rest ih =>
      simp only [consumeFlags]
      split
      · next heq =>
          have hnd : notDelimTok tok = true := by simp [notDelimTok, heq]
          simp [List.takeWhile_cons, List.dropWhile_cons, hnd, heq, ih,
            Bool.or_assoc]
      · next heq =>
          have hnd : notDelimTok tok = true := by simp [notDelimTok, heq]
          simp [List.takeWhile_cons, List.dropWhile_cons, hnd, heq, ih,
            Bool.or_assoc]
      · next heq =>
          have hnd : notDelimTok tok = false := by simp [notDelimTok, heq]
          simp [List.takeWhile_cons, List.dropWhile_cons, hnd]
      · next heq =>
          have hnd : notDelimTok tok = false := by simp [notDelimTok, heq]
          simp [List.takeWhile_cons, List.dropWhile_cons, hnd]
      · next h1 h2 h3 h4 =>
          have h3' : decide (strToUpper tok = ",") = false := by
            simp only [decide_eq_false_iff_not]; exact h3
          have h4' : decide (strToUpper tok = ")") = false := by
            simp only [decide_eq_false_iff_not]; exact h4
          have hnd : notDelimTok tok = true := by
            simp [notDelimTok, h3', h4']
          have hp : decide (strToUpper tok = "PRIMARY") = false := by
            simp only [decide_eq_false_iff_not]; exact h1
          have hu : decide (strToUpper tok = "UNIQUE") = false := by
            simp only [decide_eq_false_iff_not]; exact h2
          simp [List.takeWhile_cons, List.dropWhile_cons, hnd, hp, hu, ih]

/-! ### Claim C8 -/

/-- C8. Within a column definition, the constraint-flag loop's outcome is
exactly: each flag is its incoming value OR-ed with whether `PRIMARY`
(resp. `UNIQUE`) occurs, case-insensitively, anywhere among the tokens
before the next `,`/`)` delimiter — hence the two keywords may appear in
either order and repeating one is idempotent — and every other token in
that span is skipped, the remaining input starting at the delimiter.
Consequently `CREATE TABLE t (id INT PRIMARY, name TEXT)` parses to a
CreateTable with `id` primary-not-unique and `name` neither. -/
theorem create_flags_spec :
    (∀ (ts : List String) (p u : Bool),
      consumeFlags ts p u =
        (p || (ts.takeWhile notDelimTok).any
            (fun tok => decide (strToUpper tok = "PRIMARY")),
          u || (ts.takeWhile notDelimTok).any
            (fun tok => decide (strToUpper tok = "UNIQUE")),
          ts.dropWhile notDelimTok))
    ∧ parse "CREATE TABLE t (id INT PRIMARY, name TEXT)" =
        .ok (.CreateTable "t"
          [⟨"id", "INT", true, false⟩, ⟨"name", "TEXT", false, false⟩]) :=
  ⟨consumeFlags_eq, rfl⟩

/-! ### End-of-input vs closing parenthesis (claim C9) -/

theorem consumeFlags_length (ts : List String) (p u : Bool) :
    (consumeFlags ts p u).2.2.length ≤ ts.length := by
  rw [consumeFlags_eq]
  exact (List.dropWhile_sublist _).length_le.trans (le_refl _)

theorem parseColsF_fuel_irrelevant (fuel : Nat) :
    ∀ (fuel' : Nat) (toks : List String), toks.length ≤ fuel →
      toks.length ≤ fuel' → parseColsF fuel toks = parseColsF fuel' toks := by
  induction fuel with
  | zero =>
      intro fuel' toks h h'
      have : toks = [] := List.length_eq_zero.mp (Nat.le_zero.mp h)
      subst this
      cases fuel' <;> rfl
  | succ f ih =>
      intro fuel' toks h h'
      cases toks with
      | nil => cases fuel' <;> rfl
      | cons tok rest =>
          cases fuel' with
          | zero => simp at h'
          | succ f' =>
              simp only [parseColsF]
              by_cases hp : tok = ")"
              · simp [hp]
              · by_cases hc : tok = ","
                · simp only [hp, hc, if_false, if_true]
                  exact ih f' rest (by simpa using h) (by simpa using h')
                · simp only [hp, hc, if_false]
                  cases rest with
                  | nil => rfl
                  | cons ty rest2 =>
                      dsimp only
                      have hlen := consumeFlags_length rest2 false false
                      have hr : (consumeFlags rest2 false false).2.2.length ≤ f := by
                        simp only [List.length_cons] at h
                        omega
                      have hr' : (consumeFlags rest2 false false).2.2.length ≤ f' := by
                        simp only [List.length_cons] at h'
                        omega
                      rw [ih f' (consumeFlags rest2 false false).2.2 hr hr']

theorem takeWhile_snoc_false {α : Type} (p : α → Bool) (x : α) (hx : p x = false) :
    ∀ l : List α, (l ++ [x]).takeWhile p = l.takeWhile p := by
  intro l
  induction l with
  | nil => simp [List.takeWhile, hx]
  | cons a l ih =>
      by_cases ha : p a
      · simp [List.takeWhile_cons, ha, ih]
      · simp only [Bool.not_eq_true] at ha
        simp [List.takeWhile_cons, ha]

theorem dropWhile_snoc_false {α : Type} (p : α → Bool) (x : α) (hx : p x = false) :
    ∀ l : List α, (l ++ [x]).dropWhile p = l.dropWhile p ++ [x] := by
  intro l
  induction l with
  | nil => simp [List.dropWhile, hx]
  | cons a l ih =>
      by_cases ha : p a
      · simp [List.dropWhile_cons, ha, ih]
      · simp only [Bool.not_eq_true] at ha
        simp [List.dropWhile_cons, ha]

theorem notDelimTok_paren : notDelimTok ")" = false := rfl

theorem parseColsF_snoc_paren (fuel : Nat) :
    ∀ (toks : List String) (cols : List ColumnDefinition), ")" ∉ toks →
      parseColsF fuel toks = .ok cols →
      parseColsF fuel (toks ++ [")"]) = .ok cols := by
  induction fuel with
  | zero =>
      intro toks cols hmem h
      cases toks with
      | nil =>
          cases h
          rfl
      | cons tok rest =>
          cases h
          rfl
  | succ f ih =>
      intro toks cols hmem h
      cases toks with
      | nil =>
          cases h
          rfl
      | cons tok rest =>
          have hne : tok ≠ ")" := fun e => hmem (e ▸ List.mem_cons_self _ _)
          have hrest : ")" ∉ rest := fun hm => hmem (List.mem_cons_of_mem _ hm)
          simp only [List.cons_append, parseColsF, hne, if_false] at h ⊢
          by_cases hc : tok = ","
          · simp only [hc, if_true] at h ⊢
            exact ih rest cols hrest h
          · simp only [hc, if_false] at h ⊢
            cases rest with
            | nil => cases h
            | cons ty rest2 =>
                dsimp only at h ⊢
                have hrest2 : ")" ∉ rest2 :=
                  fun hm => hrest (List.mem_cons_of_mem _ hm)
                have hflags : consumeFlags (rest2 ++ [")"]) false false =
                    ((consumeFlags rest2 false false).1,
                      (consumeFlags rest2 false false).2.1,
                      (consumeFlags rest2 false false).2.2 ++ [")"]) := by
                  rw [consumeFlags_eq, consumeFlags_eq,
                    takeWhile_snoc_false notDelimTok ")" notDelimTok_paren,
                    dropWhile_snoc_false notDelimTok ")" notDelimTok_paren]
                simp only [List.append_eq, List.cons_append] at hflags ⊢
                rw [hflags]
                have hdropmem : ")" ∉ (consumeFlags rest2 false false).2.2 := by
                  intro hm
                  rw [consumeFlags_eq] at hm
                  exact hrest2 ((List.dropWhile_sublist notDelimTok).mem hm)
                cases hrec : parseColsF f (consumeFlags rest2 false false).2.2 with
                | error e => rw [hrec] at h; cases h
                | ok cols0 =>
                    rw [hrec] at h
                    cases h
                    rw [ih _ cols0 hdropmem hrec]

theorem parseVals_snoc_paren (toks : List String) (h : ")" ∉ toks) :
    parseVals (toks ++ [")"]) = parseVals toks := by
  induction toks with
  | nil => rfl
  | cons tok rest ih =>
      have hne : tok ≠ ")" := fun e => h (e ▸ List.mem_cons_self _ _)
      have hrest : ")" ∉ rest := fun hm => h (List.mem_cons_of_mem _ hm)
      by_cases hc : tok = ","
      · simp [parseVals, hne, hc, ih hrest]
      · simp [parseVals, hne, hc, ih hrest]

/-! ### Claim C9 -/

/-- C9 counterexample. A CREATE statement truncated right after a column
name fails with "Expected column type", while its properly closed form
parses successfully (consuming `)` as the column's type) — so the parser
does not accept every CREATE whose token stream ends before the closing
parenthesis, and end-of-input is not treated like `)` at that position. -/
theorem create_truncated_cex :
    parse "CREATE TABLE t (id" = .error "Expected column type"
    ∧ parse "CREATE TABLE t (id)" =
        .ok (.CreateTable "t" [⟨"id", ")", false, false⟩]) :=
  ⟨rfl, rfl⟩

/-- C9 (amended: the equivalence holds at every position of the INSERT
value loop, and at column-definition boundaries of the CREATE loop — i.e.
whenever the truncated form itself parses — but a CREATE truncated between
a column name and its type errors while its closed form succeeds).  For
every INSERT whose value tokens contain no `)`, dropping the final `)`
yields the identical Statement; for CREATE, any truncated token stream that
parses successfully parses to the same Statement as its closed form; in
particular `INSERT INTO t VALUES (1, 'a'` equals its closed form. -/
theorem eoi_paren_spec (name : String) (toks : List String)
    (h : ")" ∉ toks) :
    parse_insert (["INTO", name, "VALUES", "("] ++ toks) =
      parse_insert (["INTO", name, "VALUES", "("] ++ toks ++ [")"])
    ∧ (∀ cols, parseCols toks = .ok cols → parseCols (toks ++ [")"]) = .ok cols)
    ∧ (∀ s, parse_create (["TABLE", name, "("] ++ toks) = .ok s →
        parse_create (["TABLE", name, "("] ++ toks ++ [")"]) = .ok s)
    ∧ parse "INSERT INTO t VALUES (1, 'a'" = parse "INSERT INTO t VALUES (1, 'a')" := by
  have hcols : ∀ cols, parseCols toks = .ok cols →
      parseCols (toks ++ [")"]) = .ok cols := by
    intro cols hok
    have h1 : parseColsF (toks.length + 1) toks = .ok cols := by
      rw [parseColsF_fuel_irrelevant (toks.length + 1) toks.length toks
        (Nat.le_succ _) (le_refl _)]
      exact hok
    have h2 := parseColsF_snoc_paren (toks.length + 1) toks cols h h1
    show parseColsF (toks ++ [")"]).length (toks ++ [")"]) = .ok cols
    rw [List.length_append, List.length_cons, List.length_nil]
    exact h2
  refine ⟨?_, hcols, ?_, ?_⟩
  · have hb1 : parse_insert (["INTO", name, "VALUES", "("] ++ toks) =
        .ok (.Insert name (parseVals toks)) := rfl
    have hb2 : parse_insert (["INTO", name, "VALUES", "("] ++ toks ++ [")"]) =
        .ok (.Insert name (parseVals (toks ++ [")"]))) := rfl
    rw [hb1, hb2, parseVals_snoc_paren toks h]
  · intro s hs
    have hb1 : parse_create (["TABLE", name, "("] ++ toks) =
        (match parseCols toks with
          | .ok cols => .ok (.CreateTable name cols)
          | .error e => .error e) := rfl
    have hb2 : parse_create (["TABLE", name, "("] ++ toks ++ [")"]) =
        (match parseCols (toks ++ [")"]) with
          | .ok cols => .ok (.CreateTable name cols)
          | .error e => .error e) := rfl
    rw [hb1] at hs
    rw [hb2]
    cases hok : parseCols toks with
    | error e => rw [hok] at hs; cases hs
    | ok cols =>
        rw [hok] at hs
        rw [hcols cols hok]
        exact hs
  · rfl

/-- Witness for C9's amended theorem at a concrete input: the value tokens
`1 , 'a'` contain no `)`, and the truncated INSERT parses to the same
statement as its closed form. -/
theorem eoi_paren_spec_witness :
    parse_insert (["INTO", "t", "VALUES", "("] ++ ["1", ",", "'a'"]) =
      parse_insert (["INTO", "t", "VALUES", "("] ++ ["1", ",", "'a'"] ++ [")"]) :=
  (eoi_paren_spec "t" ["1", ",", "'a'"] (by decide)).1

/-! ### Claim C10 -/

/-- C10. CreateTable never inspects column names, so a table whose column
list repeats a name is created successfully (the only check is on the
table name); and the column resolution used by both the no-join Select
path and both sides of the join path (`resolveColumn`, i.e.
`position(|c| c.name == name)`) always returns the lowest declared
position bearing the requested name — every earlier position has a
different name — so later same-named columns are unreachable by name. -/
theorem duplicate_columns_spec :
    (∀ (db : Database) (name : String) (cols : List Column),
      db.tables name = none →
      db.create_table name cols =
        .ok ⟨fun n => if n = name then some (Table.new name cols)
          else db.tables n⟩)
    ∧ (∀ (cols : List Column) (n : String) (i : Nat),
        resolveColumn cols n = some i →
        (∃ c, cols[i]? = some c ∧ c.name = n) ∧
          ∀ j, j < i → ∀ cj, cols[j]? = some cj → cj.name ≠ n) := by
  constructor
  · intro db name cols h
    simp [Database.create_table, h]
  · intro cols n i h
    obtain ⟨_, hat, hbefore⟩ := resolveColumn_some cols n i h
    exact ⟨hat, hbefore⟩

/-- Witness for C10 at concrete inputs: creating a table whose column list
repeats `x` succeeds on the empty database; resolving `x` against the
duplicated list yields position 0; and a no-join Select of `x` on such a
table projects position 0's value (`7`), not the later column's. -/
theorem duplicate_columns_spec_witness :
    Database.new.create_table "d" dupTable.columns =
      .ok ⟨fun n => if n = "d" then some (Table.new "d" dupTable.columns)
        else Database.new.tables n⟩
    ∧ resolveColumn dupTable.columns "x" = some 0
    ∧ dupDb.handle_select "d" ["x"] none = .ok (.Data ["x"] [[.Integer 7]]) :=
  ⟨duplicate_columns_spec.1 Database.new "d" dupTable.columns rfl, rfl, rfl⟩

end MartinDb
